import Mathlib

/-!
Verification of the package-configuration resolution engine and the
remote-tag fetch-and-merge cache of `houdini_package_manager`.

The definitions below are shallow embeddings of:
  * `wrangle/config_control.py` — `Package._flatten_package`,
    `Package._standard_paths`, `Package._split_indexes`,
    `Package._replace_var_calls`, `Package._resolve_vars`,
    `Package._find_plugin_paths`, `Package.extract_data`;
  * `wrangle/repository.py` — `GitProject._make_request`,
    `GitProject._fetch_all_pages`, `_Repo.tags` (setter),
    `_Repo._version_key`, `_Repo._merge_version_lists`.

Python strings are `String`, scalar JSON values are `JVal`, a flattened
entry (a Python list of keys/indices ending in a value) is an `Entry`.
Python's in-place list mutation is modelled by threading the entry list
through the functions; exceptions and non-termination are modelled by
`Option` (`none` = the Python call raises or runs forever), recursion that
Python bounds only dynamically receives an explicit fuel argument.
-/

/-- A scalar JSON value (string, number, boolean or null). -/
inductive JVal where
  | str (s : String)
  | num (n : Int)
  | boolean (b : Bool)
  | null
deriving DecidableEq, Repr

/-- One path segment of a flattened entry: an object key or an array index. -/
inductive Seg where
  | key (s : String)
  | idx (n : Nat)
deriving DecidableEq, Repr

/-- One flattened entry `[seg0, ..., segn, value]`: the Python list holding
the access path followed by the scalar value. -/
structure Entry where
  segs : List Seg
  val : JVal
deriving DecidableEq, Repr

/-! ### String helpers (ASCII, as Python uses them on these inputs) -/

/-- `str.lower` (ASCII, matching `Char.toLower`). -/
def lowerStr (s : String) : String := String.mk (s.toList.map Char.toLower)

/-- The `is_variable` predicate of `_resolve_vars`: alphanumeric or underscore. -/
def isVarChar (c : Char) : Bool := c.isAlpha || c.isDigit || c = '_'

/-- Single-character `str.isidentifier`, used by the rescans inside
`_replace_var_calls`: a letter or an underscore (digits are not identifiers). -/
def isIdentChar (c : Char) : Bool := c.isAlpha || c = '_'

/-- Python `c in s` for a single character. -/
def containsChar (s : String) (c : Char) : Bool := s.toList.contains c

/-- Python `str.split(sep)` for a one-character separator. -/
def splitOnChar (sep : Char) : List Char → List (List Char)
  | [] => [[]]
  | c :: cs =>
    let r := splitOnChar sep cs
    if c = sep then [] :: r
    else
      match r with
      | h :: t => (c :: h) :: t
      | [] => [[c]]

/-- Case-insensitive "the pattern starts here" test. -/
def ciStarts : List Char → List Char → Bool
  | [], _ => true
  | _ :: _, [] => false
  | p :: ps, c :: cs => (p.toLower = c.toLower) && ciStarts ps cs

/-- Worker for `ciSub`; the fuel is the length of the subject, enough because
every step consumes at least one subject character (patterns are nonempty,
always of the form `$name`). -/
def ciSubFuel (pat repl : List Char) : Nat → List Char → List Char
  | 0, s => s
  | _ + 1, [] => []
  | fuel + 1, c :: cs =>
    if ciStarts pat (c :: cs) then repl ++ ciSubFuel pat repl fuel ((c :: cs).drop pat.length)
    else c :: ciSubFuel pat repl fuel cs

/-- `re.compile(re.escape(pat), re.IGNORECASE).sub(repl, s)`: replace every
(leftmost, non-overlapping) case-insensitive occurrence of the literal `pat`,
without rescanning the replacement text. -/
def ciSub (pat repl s : String) : String :=
  String.mk (ciSubFuel pat.toList repl.toList s.toList.length s.toList)

/-! ### The variable resolver (`_resolve_vars` / `_replace_var_calls`) -/

/-- A pending variable call `[var name, index of the calling entry, visited set]`.
The Python visited set is modelled as a list used only through membership. -/
structure VarCall where
  name : String
  callIdx : Nat
  processed : List String
deriving DecidableEq, Repr

/-- A variable declaration `[var name (original case), var value, entry index]`. -/
structure VarInit where
  key : String
  val : JVal
  initIdx : Nat
deriving DecidableEq, Repr

/-- `path[-2]` when it is a string: the key naming the entry's value.
(Entries are assumed to carry at least one segment, as every entry flattened
from an object or array does.) -/
def secondLastKey (e : Entry) : Option String :=
  match e.segs.getLast? with
  | some (.key k) => some k
  | _ => none

/-- The potential-variable-name collection pass of `_resolve_vars`: the
lower-cased key of every entry, first occurrences kept. -/
def potential_var_names (config : List Entry) : List String :=
  config.foldl (fun acc e =>
    match secondLastKey e with
    | some k => if lowerStr k ∈ acc then acc else acc ++ [lowerStr k]
    | none => acc) []

/-- `"".join(takewhile(f, chunk.lower())) for chunk in s.split("$")[1:]`. -/
def scanNames (f : Char → Bool) (s : String) : List String :=
  ((splitOnChar '$' s.toList).drop 1).map
    (fun chunk => String.mk ((chunk.map Char.toLower).takeWhile f))

/-- The call-site scan of `_resolve_vars`: for every entry whose value is a
string containing `$`, each maximal `is_variable` run after a `$` whose
lower-cased name is a potential variable name becomes a call with an empty
visited set. -/
def scanCalls (config : List Entry) (pots : List String) : List VarCall :=
  config.enum.flatMap (fun ie =>
    match ie.2.val with
    | .str s =>
      if containsChar s '$' then
        (scanNames isVarChar s).filterMap
          (fun n => if n ≠ "" && n ∈ pots then some ⟨n, ie.1, []⟩ else none)
      else []
    | _ => [])

/-- Order-preserving duplicate removal (first occurrence wins). -/
def dedupAcc (seen : List String) : List String → List String
  | [] => []
  | a :: as => if a ∈ seen then dedupAcc seen as else a :: dedupAcc (a :: seen) as

/-- The `var_inits` pass at the top of `_replace_var_calls`: every entry whose
key lower-cases to a known called name, with its value and index, snapshotted
from the data as it is when the frame is entered. -/
def computeVarInits (data : List Entry) (calls : List VarCall) : List VarInit :=
  let known := dedupAcc [] (calls.map (·.name))
  data.enum.filterMap (fun ie =>
    match secondLastKey ie.2 with
    | some k => if lowerStr k ∈ known then some ⟨k, ie.2.val, ie.1⟩ else none
    | none => none)

/-- `Package._split_indexes`: split at the first element exceeding `splitNum`. -/
def split_indexes (nums : List Nat) (splitNum : Nat) : List Nat × List Nat :=
  (nums.takeWhile (fun n => n ≤ splitNum), nums.dropWhile (fun n => n ≤ splitNum))

/-- The declaration choice of `_replace_var_calls`:
`start[-1] if start else end[0]` applied to `_split_indexes`; `none` models
the `IndexError` when both halves are empty. -/
def selectVarInit (nums : List Nat) (callI : Nat) : Option Nat :=
  let p := split_indexes nums callI
  match p.1.getLast? with
  | some v => some v
  | none => p.2.head?

/-- The declaration choice as the specification describes it: the declaration
with the largest index strictly below the call index, otherwise the one with
the smallest index strictly above it. -/
def selectVarInitSpec (nums : List Nat) (callI : Nat) : Option Nat :=
  match (nums.filter (fun n => n < callI)).getLast? with
  | some v => some v
  | none => (nums.filter (fun n => callI < n)).head?

/-- The circular-reference warning recorded by `_replace_var_calls`. -/
def warnCircular (name : String) : String :=
  "Cant process package! Circular reference detected for variable: " ++ name

/-- Result of one `_replace_var_calls` frame: the (mutated) data, the warning
list, and whether the frame ran to completion (`true` = Python `return data`,
`false` = the early `return` on a circular reference, i.e. `None`). -/
abbrev RvcRes := List Entry × List String × Bool

/-- The `for call, call_i, processed_vars in var_calls` loop of
`_replace_var_calls`. `recur` performs the recursive `_replace_var_calls`
call on the sub-calls found after a substitution (its returned flag is
discarded, exactly as Python discards the recursive return value); `none`
models an uncaught exception. Non-string values at a substitution site are
the Python `TypeError` case and also map to `none`. -/
def rvcGo (recur : List Entry → List String → List VarCall → Option RvcRes)
    (varInits : List VarInit) (pots : List String) :
    List VarCall → List Entry → List String → Option RvcRes
  | [], data, ws => some (data, ws, true)
  | c :: rest, data, ws =>
    if c.name ∈ c.processed then
      some (data, ws ++ [warnCircular c.name], false)
    else
      let processed := c.name :: c.processed
      let initIdxs := (varInits.filter (fun i => lowerStr i.key == c.name)).map (·.initIdx)
      match selectVarInit initIdxs c.callIdx with
      | none => none
      | some varIdx =>
        match varInits.find? (fun i => i.initIdx == varIdx) with
        | none => none
        | some var =>
          match data.get? c.callIdx with
          | none => none
          | some e =>
            match e.val, var.val with
            | .str s, .str repl =>
              let newVal := ciSub ("$" ++ c.name) repl s
              let data2 := data.set c.callIdx ⟨e.segs, .str newVal⟩
              if containsChar newVal '$' then
                let newCalls := (scanNames isIdentChar newVal).filterMap
                  (fun n => if n ≠ "" && n ∈ pots then some (⟨n, c.callIdx, processed⟩ : VarCall) else none)
                match recur data2 ws newCalls with
                | none => none
                | some (d2, w2, _) => rvcGo recur varInits pots rest d2 w2
              else rvcGo recur varInits pots rest data2 ws
            | _, _ => none

/-- `Package._replace_var_calls`. The fuel bounds the recursion depth; each
frame recomputes its `var_inits` snapshot from the current data. -/
def replace_var_calls : Nat → List Entry → List String → List VarCall → List String → Option RvcRes
  | 0, _, _, _, _ => none
  | fuel + 1, data, ws, calls, pots =>
    rvcGo (fun d w c => replace_var_calls fuel d w c pots) (computeVarInits data calls) pots calls data ws

/-- `Package._standard_paths`: in string values containing a slash or a
backslash, turn every backslash into a forward slash. -/
def standard_paths (data : List Entry) : List Entry :=
  data.map (fun e =>
    match e.val with
    | .str s =>
      if containsChar s '/' || containsChar s '\\' then
        ⟨e.segs, .str (String.mk (s.toList.map (fun c => if c = '\\' then '/' else c)))⟩
      else e
    | _ => e)

/-- The `while True` loop of `_resolve_vars`: collect potential names and
call sites, stop when no call site remains or a warning has been recorded,
otherwise run one `_replace_var_calls` pass. A frame that ended through the
early circular-reference `return` leaves `config = None` in Python and the
next iteration raises, hence `none`. -/
def resolveLoop : Nat → List Entry → List String → Option (List Entry × List String)
  | 0, _, _ => none
  | fuel + 1, config, ws =>
    let pots := potential_var_names config
    let calls := scanCalls config pots
    if calls = [] || ws ≠ [] then some (config, ws)
    else
      match replace_var_calls (pots.length + 1) config ws calls pots with
      | none => none
      | some (d, w, true) => resolveLoop fuel d w
      | some (_, _, false) => none

/-- `Package._resolve_vars`: normalise path separators, then iterate. -/
def resolve_vars (fuel : Nat) (config : List Entry) (ws : List String) :
    Option (List Entry × List String) :=
  resolveLoop fuel (standard_paths config) ws

/-! ### Plugin-path extraction (`_find_plugin_paths` / `extract_data`) -/

/-- The inner `split_paths` of `_find_plugin_paths`: strip one trailing `;&`
or `;`, then split on `;`. `none` models the `IndexError` raised by
`string[-1]` on the empty string. -/
def split_paths (s : String) : Option (List String) :=
  let cs := s.toList
  if cs.drop (cs.length - 2) = [';', '&'] then
    some ((splitOnChar ';' (cs.take (cs.length - 2))).map String.mk)
  else
    match cs.getLast? with
    | none => none
    | some c =>
      let cs2 := if c = ';' then cs.dropLast else cs
      some ((splitOnChar ';' cs2).map String.mk)

/-- Python `x in path` on the flattened entry list: some segment is the key
`k`, or the final value is the string `k`. -/
def entryHasElem (e : Entry) (k : String) : Bool :=
  e.segs.contains (.key k) || e.val == .str k

/-- The filter/split/dedup part of `Package._find_plugin_paths`, before the
existence check: keep entries mentioning `HOUDINI_PATH`, `path` or `hpath`,
keep string values, split each value into paths, drop duplicates. -/
def plugin_candidates (paths : List Entry) : Option (List String) :=
  match (((paths.filter (fun e =>
      entryHasElem e "HOUDINI_PATH" || entryHasElem e "path" || entryHasElem e "hpath")).filter
      (fun e => match e.val with | .str _ => true | _ => false)).map
      (fun e => match e.val with | .str s => s | _ => "")).mapM split_paths with
  | none => none
  | some parts => some (dedupAcc [] parts.flatten)

/-- `Package._find_plugin_paths`: candidates that exist on disk, where
`ex` is the `Path.exists` oracle. -/
def find_plugin_paths (ex : String → Bool) (paths : List Entry) : Option (List String) :=
  (plugin_candidates paths).map (fun l => l.filter ex)

/-- `Package.extract_data`: keep the extracted paths that the host
environment (hconfig) also reports. -/
def extract_data (hconfig : List String) (pluginPathsFromConfig : List String) : List String :=
  pluginPathsFromConfig.filter (fun p => p ∈ hconfig)

/-! ### The JSON tree and `Package._flatten_package` -/

mutual
/-- A JSON-like document: scalar, object or array. -/
inductive JTree where
  | leaf (v : JVal)
  | obj (fields : JFields)
  | arr (elems : JElems)
deriving DecidableEq, Repr

/-- The key/subtree fields of a JSON object, in document order. -/
inductive JFields where
  | nil
  | cons (k : String) (t : JTree) (rest : JFields)
deriving DecidableEq, Repr

/-- The elements of a JSON array, in order. -/
inductive JElems where
  | nil
  | cons (t : JTree) (rest : JElems)
deriving DecidableEq, Repr
end

mutual
/-- `Package._flatten_package`: pre-order list of paths to each scalar. -/
def flatten_package : JTree → List Seg → List Entry
  | .leaf v, pre => [⟨pre, v⟩]
  | .obj fields, pre => flattenFields fields pre
  | .arr elems, pre => flattenElems elems 0 pre

/-- The `for key, value in data.items()` branch of `_flatten_package`. -/
def flattenFields : JFields → List Seg → List Entry
  | .nil, _ => []
  | .cons k t rest, pre => flatten_package t (pre ++ [.key k]) ++ flattenFields rest pre

/-- The `for i, item in enumerate(data)` branch of `_flatten_package`. -/
def flattenElems : JElems → Nat → List Seg → List Entry
  | .nil, _, _ => []
  | .cons t rest, i, pre => flatten_package t (pre ++ [.idx i]) ++ flattenElems rest (i + 1) pre
end

mutual
/-- Number of scalar leaves of a document. -/
def leafCount : JTree → Nat
  | .leaf _ => 1
  | .obj fields => leafCountFields fields
  | .arr elems => leafCountElems elems

def leafCountFields : JFields → Nat
  | .nil => 0
  | .cons _ t rest => leafCount t + leafCountFields rest

def leafCountElems : JElems → Nat
  | .nil => 0
  | .cons t rest => leafCount t + leafCountElems rest
end

/-- The keys of an object, in order. -/
def fieldsKeys : JFields → List String
  | .nil => []
  | .cons k _ rest => k :: fieldsKeys rest

/-- Key lookup in an object (first match). -/
def lookupField : JFields → String → Option JTree
  | .nil, _ => none
  | .cons k t rest, q => if k = q then some t else lookupField rest q

/-- Positional lookup in an array. -/
def elemsGet : JElems → Nat → Option JTree
  | .nil, _ => none
  | .cons t _, 0 => some t
  | .cons _ rest, n + 1 => elemsGet rest n

/-- Follow an access path down a document. -/
def getPath : JTree → List Seg → Option JTree
  | t, [] => some t
  | .obj fields, .key k :: rest =>
    (match lookupField fields k with
     | some c => getPath c rest
     | none => none)
  | .arr elems, .idx i :: rest =>
    (match elemsGet elems i with
     | some c => getPath c rest
     | none => none)
  | _, _ => none

mutual
/-- Whether a document contains at least one scalar leaf. -/
def hasLeaf : JTree → Bool
  | .leaf _ => true
  | .obj fields => fieldsHasLeaf fields
  | .arr elems => elemsHasLeaf elems

def fieldsHasLeaf : JFields → Bool
  | .nil => false
  | .cons _ t rest => hasLeaf t || fieldsHasLeaf rest

def elemsHasLeaf : JElems → Bool
  | .nil => false
  | .cons t rest => hasLeaf t || elemsHasLeaf rest
end

/-- No duplicates in a key list. -/
def nodupKeys : List String → Bool
  | [] => true
  | k :: ks => !ks.contains k && nodupKeys ks

mutual
/-- Well-formed documents as Python produces them: object keys are distinct
(Python dicts cannot repeat a key) and every object field and array element
contains a leaf (no empty containers anywhere). -/
def good : JTree → Bool
  | .leaf _ => true
  | .obj fields => nodupKeys (fieldsKeys fields) && goodFields fields
  | .arr elems => goodElems elems

def goodFields : JFields → Bool
  | .nil => true
  | .cons _ t rest => hasLeaf t && good t && goodFields rest

def goodElems : JElems → Bool
  | .nil => true
  | .cons t rest => hasLeaf t && good t && goodElems rest
end

mutual
/-- A positive size measure on documents. -/
def sizeT : JTree → Nat
  | .leaf _ => 1
  | .obj fields => sizeF fields + 1
  | .arr elems => sizeE elems + 1

def sizeF : JFields → Nat
  | .nil => 1
  | .cons _ t rest => sizeT t + sizeF rest + 1

def sizeE : JElems → Nat
  | .nil => 1
  | .cons t rest => sizeT t + sizeE rest + 1
end

/-- The `n`-th segment of an access path, if any. -/
def nthSeg (l : List Seg) (n : Nat) : Option Seg := (l.drop n).head?

/-! ### Tag lists (`_Repo` in `repository.py`) -/

/-- One alternating piece of `_version_key`: a non-numeric run kept as a
string, or a numeric run converted with `int`. -/
inductive VPart where
  | s (str : String)
  | n (num : Nat)
deriving DecidableEq, Repr

/-- `int` of a digit run. -/
def digitsToNat (ds : List Char) : Nat := ds.foldl (fun a c => a * 10 + (c.toNat - 48)) 0

/-- Worker for `version_key`; the fuel (the string length) suffices because
every recursive step consumes a nonempty digit run. The produced list always
alternates string, number, string, ..., string (as `re.split` with one
capture group does). -/
def versionKeyFuel : Nat → List Char → List VPart
  | 0, cs => [.s (String.mk cs)]
  | fuel + 1, cs =>
    let t := cs.takeWhile (fun c => !c.isDigit)
    let rest := cs.dropWhile (fun c => !c.isDigit)
    match rest with
    | [] => [.s (String.mk t)]
    | _ =>
      .s (String.mk t) :: .n (digitsToNat (rest.takeWhile Char.isDigit)) ::
        versionKeyFuel fuel (rest.dropWhile Char.isDigit)

/-- `_Repo._version_key`: `re.split("([0-9]+)", version)` with numeric runs
converted to integers. -/
def version_key (v : String) : List VPart := versionKeyFuel v.toList.length v.toList

/-- Three-way comparison of characters by code point (Python `str` order). -/
def charCmp (a b : Char) : Ordering :=
  if a.toNat < b.toNat then .lt else if b.toNat < a.toNat then .gt else .eq

/-- Lexicographic three-way comparison of character lists (Python `str` order,
a proper prefix comparing smaller). -/
def charListCmp : List Char → List Char → Ordering
  | [], [] => .eq
  | [], _ :: _ => .lt
  | _ :: _, [] => .gt
  | a :: as, b :: bs =>
    match charCmp a b with
    | .eq => charListCmp as bs
    | o => o

/-- Three-way comparison of key parts. Keys produced by `version_key`
alternate strings and numbers position by position, so the mixed cases never
arise when two keys are compared; they are fixed arbitrarily (numbers first)
to make the comparison total. -/
def vpartCmp : VPart → VPart → Ordering
  | .s a, .s b => charListCmp a.toList b.toList
  | .n a, .n b => if a < b then .lt else if b < a then .gt else .eq
  | .n _, .s _ => .lt
  | .s _, .n _ => .gt

/-- Lexicographic three-way comparison of version keys (Python list order). -/
def keyCmp : List VPart → List VPart → Ordering
  | [], [] => .eq
  | [], _ :: _ => .lt
  | _ :: _, [] => .gt
  | a :: as, b :: bs =>
    match vpartCmp a b with
    | .eq => keyCmp as bs
    | o => o

/-- `a` sorts no later than `b` in `sorted(..., key=_version_key, reverse=True)`:
the key of `a` is not smaller than the key of `b`. -/
def tagGe (a b : String) : Bool :=
  match keyCmp (version_key a) (version_key b) with
  | .lt => false
  | _ => true

/-- `_Repo._merge_version_lists`: with a common version, sort the duplicate-free
union by version key, descending (a stable sort, as Python's `sorted`);
with no common version, replace the old list by the new one. -/
def merge_version_lists (old newTags : List String) : List String :=
  if old.any (fun t => t ∈ newTags) then
    List.insertionSort (fun a b => tagGe a b = true) (dedupAcc [] (old ++ newTags))
  else newTags

/-- The argument of the `_Repo.tags` setter: `None`, a single string, or a
list of strings. -/
inductive TagsArg where
  | nothing
  | one (s : String)
  | many (l : List String)
deriving DecidableEq, Repr

/-- The body of the setter after the `None`/empty guards. -/
def setTagsGo (old newTags : List String) : List String :=
  if old = newTags then old
  else if old = [] then newTags
  else merge_version_lists old newTags

/-- The `_Repo.tags` setter: `None` and the empty list leave the stored list
unchanged; a single string becomes a one-element list; an identical list is a
no-op; an empty stored list adopts the new one; otherwise the lists merge. -/
def set_tags (old : List String) : TagsArg → List String
  | .nothing => old
  | .many [] => old
  | .one s => setTagsGo old [s]
  | .many l => setTagsGo old l

/-! ### Remote tag fetch (`GitProject`) -/

/-- An HTTP response, reduced to what `_fetch_all_pages` consumes: the status
code and the tag names parsed from the JSON body. -/
structure HttpResponse where
  status : Nat
  tags : List String
deriving DecidableEq, Repr

/-- The exceptions `_make_request` can raise. -/
inductive FetchErr where
  | connectionError
  | rateLimited
deriving DecidableEq, Repr

/-- `GitProject._make_request`: a `none` wire response is the connection
exception; 200 returns the response, 403 raises `RateLimitError`, anything
else returns `None` ("package most likely has no remote repo"). -/
def make_request (resp : Option HttpResponse) : Except FetchErr (Option HttpResponse) :=
  match resp with
  | none => .error .connectionError
  | some r =>
    if r.status = 200 then .ok (some r)
    else if r.status = 403 then .error .rateLimited
    else .ok none

/-- The `while True` pagination loop of `GitProject._fetch_all_pages`,
counting issued requests. The server is a function from page number to wire
response; the outer `none` models non-termination (fuel exhaustion). -/
def fetch_pages_aux (server : Nat → Option HttpResponse) :
    Nat → Nat → List String → Nat → Option (Except FetchErr (List String) × Nat)
  | 0, _, _, _ => none
  | fuel + 1, page, allTags, reqs =>
    match make_request (server page) with
    | .error e => some (.error e, reqs + 1)
    | .ok none => some (.ok allTags, reqs + 1)
    | .ok (some r) =>
      if r.tags = [] then some (.ok allTags, reqs + 1)
      else
        let allTags2 := allTags ++ r.tags
        if r.tags.length < 100 then some (.ok allTags2, reqs + 1)
        else fetch_pages_aux server fuel (page + 1) allTags2 (reqs + 1)

/-- `GitProject._fetch_all_pages`: start at page 1 with no tags and no
requests issued. -/
def fetch_all_pages (server : Nat → Option HttpResponse) (fuel : Nat) :
    Option (Except FetchErr (List String) × Nat) :=
  fetch_pages_aux server fuel 1 [] 0

/-- A server answering page `p` with status 200 and the `p`-th body of the
given list (pages beyond the list fail to connect; never reached in the
statements below). -/
def serverOfPages (pages : List (List String)) : Nat → Option HttpResponse :=
  fun p => (pages.get? (p - 1)).map (fun b => ⟨200, b⟩)

/-! ### The package pipeline (`Package.resolve` + `Package.extract_data`) -/

/-- `Package.resolve` followed by `Package.extract_data`: flatten the
document, prepend the host environment variables, resolve, keep the package's
own (now resolved) entries, extract plugin paths and intersect them with the
host-reported plugin paths. -/
def package_pipeline (fuel : Nat) (envVars : List (String × String)) (ex : String → Bool)
    (hconfig : List String) (tree : JTree) : Option (List String) :=
  match resolve_vars fuel
      (envVars.map (fun kv => Entry.mk [.key kv.1] (.str kv.2)) ++ flatten_package tree []) [] with
  | none => none
  | some (d, _) =>
    (find_plugin_paths ex (d.drop envVars.length)).map (extract_data hconfig)

/-! ### Concrete documents used by the claims -/

/-- `{"A": "$B", "B": "$A"}`. -/
def treeAB : JTree :=
  .obj (.cons "A" (.leaf (.str "$B")) (.cons "B" (.leaf (.str "$A")) .nil))

/-- `{"env": [{"A": "val1"}, {"B": "$A"}, {"A": "val2"}]}`: a name declared
before and after its call site. -/
def treeShadow : JTree :=
  .obj (.cons "env" (.arr
    (.cons (.obj (.cons "A" (.leaf (.str "val1")) .nil))
    (.cons (.obj (.cons "B" (.leaf (.str "$A")) .nil))
    (.cons (.obj (.cons "A" (.leaf (.str "val2")) .nil)) .nil)))) .nil)

/-- `{"env": [{"B": "$A"}, {"A": "val2"}]}`: a name declared only after its
call site. -/
def treeForward : JTree :=
  .obj (.cons "env" (.arr
    (.cons (.obj (.cons "B" (.leaf (.str "$A")) .nil))
    (.cons (.obj (.cons "A" (.leaf (.str "val2")) .nil)) .nil))) .nil)

/-- `{"env": [{"BASE": "C:/plugins"}], "hpath": "$BASE/myplugin;$BASE/other"}`. -/
def treeC6 : JTree :=
  .obj (.cons "env" (.arr (.cons (.obj (.cons "BASE" (.leaf (.str "C:/plugins")) .nil)) .nil))
    (.cons "hpath" (.leaf (.str "$BASE/myplugin;$BASE/other")) .nil))

/-! ### Small list facts used by several proofs -/

/-- Members of `dropWhile (· ≤ c)` of a strictly increasing list exceed `c`. -/
theorem mem_dropWhileLe_gt {c : Nat} :
    ∀ {l : List Nat}, l.Pairwise (· < ·) →
      ∀ {x}, x ∈ l.dropWhile (fun n => n ≤ c) → c < x := by
  intro l
  induction l with
  | nil => intro _ x hx; simp at hx
  | cons a t ih =>
    intro hp x hx
    rw [List.dropWhile_cons] at hx
    by_cases hac : a ≤ c
    · simp only [decide_eq_true_eq, hac, if_pos] at hx
      exact ih hp.of_cons hx
    · simp only [decide_eq_true_eq, hac, if_neg, if_false] at hx
      rcases List.mem_cons.mp hx with rfl | hxt
      · omega
      · have := (List.pairwise_cons.mp hp).1 x hxt
        omega

/-- In a strictly increasing list, every member is at most the last element. -/
theorem mem_le_getLast? :
    ∀ {l : List Nat}, l.Pairwise (· < ·) → ∀ {d}, l.getLast? = some d → ∀ {x}, x ∈ l → x ≤ d := by
  intro l
  induction l with
  | nil => intro _ d hd; simp at hd
  | cons a t ih =>
    intro hp d hd x hx
    cases t with
    | nil =>
      simp at hd hx
      omega
    | cons b t' =>
      rw [List.getLast?_cons_cons] at hd
      rcases List.mem_cons.mp hx with rfl | hxt
      · have hd' := List.mem_of_getLast?_eq_some hd
        have := (List.pairwise_cons.mp hp).1 d hd'
        omega
      · exact ih hp.of_cons hd hxt

/-- In a strictly increasing list, the head is at most every member. -/
theorem head_le_mem {a : Nat} {t : List Nat} (hp : (a :: t).Pairwise (· < ·)) :
    ∀ {x}, x ∈ a :: t → a ≤ x := by
  intro x hx
  rcases List.mem_cons.mp hx with rfl | hxt
  · omega
  · have := (List.pairwise_cons.mp hp).1 x hxt
    omega

/-- If some element of a list is sent to `none`, `mapM` over `Option` is `none`. -/
theorem mapM_eq_none_of_mem {α β : Type} (f : α → Option β) :
    ∀ (l : List α) (x : α), x ∈ l → f x = none → l.mapM f = none := by
  intro l
  induction l with
  | nil => intro x hx; simp at hx
  | cons a t ih =>
    intro x hx hfx
    rw [List.mapM_cons]
    rcases List.mem_cons.mp hx with rfl | hxt
    · rw [hfx]; rfl
    · cases hfa : f a
      · rfl
      · rw [ih x hxt hfx]; rfl

/-! ### C1 — declaration-site selection -/

/-- C1: the claim states that a call at index `c` resolves with the
declaration at the largest index strictly below `c`, otherwise the one at the
smallest index above `c`. This is false: `_split_indexes` splits with a
strict `>` comparison, so a declaration at the call's own index is kept in
the "prior" half and wins. With a single declaration exactly at the call
index (a self-referencing entry such as `{"X": "$X/sub"}`), the code selects
that declaration while the specified rule selects nothing. -/
theorem C1_counterexample :
    ¬ (∀ (nums : List Nat) (c : Nat), nums.Pairwise (· < ·) → nums ≠ [] →
        selectVarInit nums c = selectVarInitSpec nums c) := by
  intro h
  have := h [0] 0 (by simp) (by simp)
  exact absurd this (by decide)

/-- C1 (amended): the resolver selects the declaration with the largest index
less than **or equal to** the call's index; only if every declaration index
exceeds the call's index does it select the smallest declaration index.
The two spec examples hold as stated: with declarations at `i₁ < c < i₂` the
call takes the value declared at `i₁` (`treeShadow` resolves `$A` at entry 1
to `"val1"` declared at entry 0, not `"val2"` at entry 2), and with a single
later declaration the call takes that value (`treeForward` resolves to
`"val2"`). -/
theorem C1_amended :
    (∀ (nums : List Nat) (c : Nat), nums.Pairwise (· < ·) → nums ≠ [] →
      ∃ d, selectVarInit nums c = some d ∧ d ∈ nums ∧
        ((d ≤ c ∧ ∀ x ∈ nums, x ≤ c → x ≤ d) ∨
         ((∀ x ∈ nums, c < x) ∧ ∀ x ∈ nums, d ≤ x))) ∧
    resolve_vars 4 (flatten_package treeShadow []) [] =
      some ([⟨[.key "env", .idx 0, .key "A"], .str "val1"⟩,
             ⟨[.key "env", .idx 1, .key "B"], .str "val1"⟩,
             ⟨[.key "env", .idx 2, .key "A"], .str "val2"⟩], []) ∧
    resolve_vars 4 (flatten_package treeForward []) [] =
      some ([⟨[.key "env", .idx 0, .key "B"], .str "val2"⟩,
             ⟨[.key "env", .idx 1, .key "A"], .str "val2"⟩], []) := by
  refine ⟨?_, by decide, by decide⟩
  intro nums c hp hne
  cases htw : (nums.takeWhile (fun n => n ≤ c)).getLast? with
  | some d =>
    have hsel : selectVarInit nums c = some d := by
      simp only [selectVarInit, split_indexes]
      rw [htw]
    refine ⟨d, hsel, ?_, Or.inl ⟨?_, ?_⟩⟩
    · exact (List.takeWhile_sublist _).mem (List.mem_of_getLast?_eq_some htw)
    · have hd := List.mem_of_getLast?_eq_some htw
      have := List.mem_takeWhile_imp hd
      simpa using this
    · intro x hx hxc
      have hsplit := List.takeWhile_append_dropWhile (fun n => decide (n ≤ c)) nums
      rw [← hsplit] at hx
      rcases List.mem_append.mp hx with hxtw | hxdw
      · exact mem_le_getLast? (hp.sublist (List.takeWhile_sublist _)) htw hxtw
      · have := mem_dropWhileLe_gt hp hxdw
        omega
  | none =>
    have htw' : nums.takeWhile (fun n => n ≤ c) = [] := List.getLast?_eq_none_iff.mp htw
    have hdw : nums.dropWhile (fun n => n ≤ c) = nums := by
      have := List.takeWhile_append_dropWhile (fun n => decide (n ≤ c)) nums
      rw [htw'] at this
      simpa using this
    have hsel : selectVarInit nums c = nums.head? := by
      simp only [selectVarInit, split_indexes]
      rw [htw, hdw]
    cases nums with
    | nil => exact absurd rfl hne
    | cons a t =>
      refine ⟨a, hsel, List.mem_cons_self a t, Or.inr ⟨?_, ?_⟩⟩
      · intro x hx
        have : x ∈ (a :: t).dropWhile (fun n => n ≤ c) := by rw [hdw]; exact hx
        exact mem_dropWhileLe_gt hp this
      · intro x hx
        exact head_le_mem hp hx

/-- Witness for `C1_amended` at declarations `[0, 2]` and call index `1`
(and `C1_amended` itself carries two closed conjuncts already). -/
theorem C1_witness :
    ∃ d, selectVarInit [0, 2] 1 = some d ∧ d ∈ [0, 2] ∧
      ((d ≤ 1 ∧ ∀ x ∈ [0, 2], x ≤ 1 → x ≤ d) ∨
       ((∀ x ∈ [0, 2], 1 < x) ∧ ∀ x ∈ [0, 2], d ≤ x)) :=
  C1_amended.1 [0, 2] 1 (by simp) (by simp)

/-! ### C2 — cycle detection on `{"A": "$B", "B": "$A"}` -/

/-- C2: resolving the flattened `{"A": "$B", "B": "$A"}` terminates without
an exception (the result is `some`, not the `none` that models a raise),
records warnings (two of them, one per variable), and leaves both values
containing `$` (`"$A"` and `"$B"` after the futile substitutions). -/
theorem C2_cycle_detection :
    resolve_vars 4 (flatten_package treeAB []) [] =
      some ([⟨[.key "A"], .str "$A"⟩, ⟨[.key "B"], .str "$B"⟩],
            [warnCircular "a", warnCircular "b"]) ∧
    ([warnCircular "a", warnCircular "b"] : List String) ≠ [] ∧
    containsChar "$A" '$' = true ∧ containsChar "$B" '$' = true := by
  refine ⟨by decide, by decide, by decide, by decide⟩

/-! ### C4 — what happens after a circular reference is found -/

/-- C4: the claim says that once a circular reference is detected, no further
substitution happens and every entry keeps its value from the moment of
detection. If that were so, at most one circular-reference warning could ever
be recorded, since recording a second one requires processing another call
site after the first detection. Resolving `{"A": "$B", "B": "$A"}` records
two warnings (and entry 1 is rewritten from `"$A"` to `"$B"` after the first
detection), so the claim is false. -/
theorem C4_counterexample :
    ¬ (∀ (config : List Entry) (fuel : Nat) (d : List Entry) (ws : List String),
        resolve_vars fuel config [] = some (d, ws) → ws.length ≤ 1) := by
  intro h
  have := h (flatten_package treeAB []) 4
    [⟨[.key "A"], .str "$A"⟩, ⟨[.key "B"], .str "$B"⟩]
    [warnCircular "a", warnCircular "b"] (by decide)
  exact absurd this (by decide)

/-- C4 (amended): when a call's name is already in its visited set, the
detecting `_replace_var_calls` frame records one warning and returns at once,
leaving the data untouched and skipping its remaining calls; and once any
warning is recorded, the outer `_resolve_vars` loop performs no further pass
(it returns the config unchanged). Call sites collected earlier in the same
pass are still processed by the outer frames, however, so substitutions can
continue within the pass (as `C4_counterexample` exhibits). -/
theorem C4_amended :
    (∀ (recur : List Entry → List String → List VarCall → Option RvcRes)
       (varInits : List VarInit) (pots : List String) (c : VarCall)
       (rest : List VarCall) (data : List Entry) (ws : List String),
        c.name ∈ c.processed →
        rvcGo recur varInits pots (c :: rest) data ws =
          some (data, ws ++ [warnCircular c.name], false)) ∧
    (∀ (fuel : Nat) (config : List Entry) (ws : List String), ws ≠ [] →
        resolveLoop (fuel + 1) config ws = some (config, ws)) := by
  constructor
  · intro recur varInits pots c rest data ws h
    simp [rvcGo, h]
  · intro fuel config ws h
    simp [resolveLoop, h]

/-- Witness for `C4_amended`: a call already marked visited is dismissed with
one warning, and a loop entered with a warning present changes nothing. -/
theorem C4_witness :
    (rvcGo (fun d w _ => some (d, w, true)) [] [] [⟨"x", 0, ["x"]⟩] [] [] =
      some ([], [warnCircular "x"], false)) ∧
    resolveLoop 1 [] ["w"] = some ([], ["w"]) :=
  ⟨C4_amended.1 _ _ _ ⟨"x", 0, ["x"]⟩ [] [] [] (by decide),
   C4_amended.2 0 [] ["w"] (by decide)⟩

/-! ### C8 — HTTP 403 on the first page -/

/-- C8: if the first page request answers with status 403, the paginated
fetch raises `RateLimitError` (the error is returned, not absorbed), exactly
one request is issued (no second page), and no tags are returned. -/
theorem C8_rate_limited (server : Nat → Option HttpResponse) (fuel : Nat)
    (body : List String) (h : server 1 = some ⟨403, body⟩) :
    fetch_all_pages server (fuel + 1) = some (.error .rateLimited, 1) := by
  unfold fetch_all_pages fetch_pages_aux
  rw [h]
  simp [make_request]

/-- Witness for `C8_rate_limited`: a server that always answers 403. -/
theorem C8_witness :
    fetch_all_pages (fun _ => some ⟨403, []⟩) 1 = some (.error .rateLimited, 1) :=
  C8_rate_limited (fun _ => some ⟨403, []⟩) 0 [] rfl

/-! ### C10 — plugin-path extraction on an empty string value -/

/-- C10: an entry whose segments mention one of the recognised path keys and
whose value is the empty string makes `_find_plugin_paths` raise `IndexError`
(`string[-1]` inside `split_paths` on `""`), modelled as `none`, for any
existence oracle and whatever else the config contains. -/
theorem C10_empty_path_value (ex : String → Bool) (config : List Entry) (e : Entry)
    (he : e ∈ config)
    (hk : (e.segs.contains (.key "HOUDINI_PATH") || e.segs.contains (.key "path") ||
           e.segs.contains (.key "hpath")) = true)
    (hv : e.val = .str "") :
    find_plugin_paths ex config = none := by
  unfold find_plugin_paths plugin_candidates
  have hkeep : (entryHasElem e "HOUDINI_PATH" || entryHasElem e "path" ||
      entryHasElem e "hpath") = true := by
    simp only [entryHasElem, Bool.or_eq_true] at hk ⊢
    tauto
  have he1 : e ∈ config.filter (fun e =>
      entryHasElem e "HOUDINI_PATH" || entryHasElem e "path" || entryHasElem e "hpath") :=
    List.mem_filter.mpr ⟨he, hkeep⟩
  have he2 : e ∈ (config.filter (fun e =>
      entryHasElem e "HOUDINI_PATH" || entryHasElem e "path" || entryHasElem e "hpath")).filter
      (fun e => match e.val with | .str _ => true | _ => false) := by
    refine List.mem_filter.mpr ⟨he1, ?_⟩
    rw [hv]
  have hmem : ("" : String) ∈ ((config.filter (fun e =>
      entryHasElem e "HOUDINI_PATH" || entryHasElem e "path" || entryHasElem e "hpath")).filter
      (fun e => match e.val with | .str _ => true | _ => false)).map
      (fun e => match e.val with | .str s => s | _ => "") := by
    refine List.mem_map.mpr ⟨e, he2, ?_⟩
    rw [hv]
  rw [mapM_eq_none_of_mem split_paths _ "" hmem (by decide)]
  rfl

/-- Witness for `C10_empty_path_value`: the one-entry config
`{"hpath": ""}`. -/
theorem C10_witness :
    find_plugin_paths (fun _ => true) [⟨[.key "hpath"], .str ""⟩] = none :=
  C10_empty_path_value (fun _ => true) [⟨[.key "hpath"], .str ""⟩]
    ⟨[.key "hpath"], .str ""⟩ (by decide) (by decide) rfl

/-! ### Order facts about the natural version comparison -/

theorem charCmp_eq_iff (a b : Char) : charCmp a b = .eq ↔ a.toNat = b.toNat := by
  unfold charCmp
  split_ifs with h1 h2 <;> simp <;> omega

theorem charCmp_swap (a b : Char) : charCmp a b = (charCmp b a).swap := by
  unfold charCmp
  split_ifs with h1 h2 h3 h4 <;> simp_all [Ordering.swap] <;> omega

theorem charCmp_lt_trans {a b c : Char} :
    charCmp a b = .lt → charCmp b c = .lt → charCmp a c = .lt := by
  unfold charCmp
  split_ifs <;> simp_all <;> omega

theorem charCmp_congr_left {a b : Char} (h : charCmp a b = .eq) (x : Char) :
    charCmp a x = charCmp b x := by
  rw [charCmp_eq_iff] at h
  unfold charCmp
  rw [h]

theorem charCmp_congr_right {a b : Char} (h : charCmp a b = .eq) (x : Char) :
    charCmp x a = charCmp x b := by
  rw [charCmp_eq_iff] at h
  unfold charCmp
  rw [h]

theorem charListCmp_swap : ∀ as bs : List Char, charListCmp as bs = (charListCmp bs as).swap
  | [], [] => rfl
  | [], _ :: _ => rfl
  | _ :: _, [] => rfl
  | a :: as, b :: bs => by
    rw [charListCmp, charListCmp, charCmp_swap a b]
    cases charCmp b a <;> simp [Ordering.swap, charListCmp_swap as bs]

theorem charListCmp_congr_left :
    ∀ as bs : List Char, charListCmp as bs = .eq →
      ∀ xs, charListCmp as xs = charListCmp bs xs
  | [], [], _, _ => rfl
  | [], _ :: _, h, _ => by simp [charListCmp] at h
  | _ :: _, [], h, _ => by simp [charListCmp] at h
  | a :: as, b :: bs, h, xs => by
    rw [charListCmp] at h
    cases hab : charCmp a b with
    | eq =>
      rw [hab] at h
      cases xs with
      | nil => rfl
      | cons x xs =>
        rw [charListCmp, charListCmp, charCmp_congr_left hab x]
        cases charCmp b x with
        | eq => exact charListCmp_congr_left as bs h xs
        | lt => rfl
        | gt => rfl
    | lt => rw [hab] at h; exact absurd h (by simp)
    | gt => rw [hab] at h; exact absurd h (by simp)

theorem charListCmp_lt_trans :
    ∀ as bs cs : List Char, charListCmp as bs = .lt → charListCmp bs cs = .lt →
      charListCmp as cs = .lt
  | [], [], cs, h1, _ => by simp [charListCmp] at h1
  | [], b :: bs, [], _, h2 => by simp [charListCmp] at h2
  | [], b :: bs, c :: cs, _, _ => rfl
  | a :: as, [], cs, h1, _ => by simp [charListCmp] at h1
  | a :: as, b :: bs, [], _, h2 => by simp [charListCmp] at h2
  | a :: as, b :: bs, c :: cs, h1, h2 => by
    rw [charListCmp] at h1 h2 ⊢
    cases hab : charCmp a b with
    | eq =>
      rw [hab] at h1
      cases hbc : charCmp b c with
      | eq =>
        rw [hbc] at h2
        have hac : charCmp a c = .eq := by
          rw [charCmp_congr_left hab c, hbc]
        rw [hac]
        exact charListCmp_lt_trans as bs cs h1 h2
      | lt =>
        have hac : charCmp a c = .lt := by rw [charCmp_congr_left hab c, hbc]
        rw [hac]
      | gt => rw [hbc] at h2; exact absurd h2 (by simp)
    | lt =>
      cases hbc : charCmp b c with
      | eq =>
        have hac : charCmp a c = .lt := by rw [← charCmp_congr_right hbc a, hab]
        rw [hac]
      | lt => rw [charCmp_lt_trans hab hbc]
      | gt => rw [hbc] at h2; exact absurd h2 (by simp)
    | gt => rw [hab] at h1; exact absurd h1 (by simp)

theorem vpartCmp_swap : ∀ a b : VPart, vpartCmp a b = (vpartCmp b a).swap
  | .s a, .s b => charListCmp_swap a.toList b.toList
  | .n a, .n b => by
    simp only [vpartCmp]
    split_ifs <;> simp_all [Ordering.swap] <;> omega
  | .n _, .s _ => rfl
  | .s _, .n _ => rfl

theorem vpartCmp_congr_left :
    ∀ {a b : VPart}, vpartCmp a b = .eq → ∀ x, vpartCmp a x = vpartCmp b x
  | .s a, .s b, h, x => by
    cases x with
    | s c => exact charListCmp_congr_left a.toList b.toList h c.toList
    | n m => rfl
  | .n a, .n b, h, x => by
    have : a = b := by
      simp only [vpartCmp] at h
      split_ifs at h <;> omega
    rw [this]
  | .n _, .s _, h, _ => by simp [vpartCmp] at h
  | .s _, .n _, h, _ => by simp [vpartCmp] at h

theorem vpartCmp_congr_right {a b : VPart} (h : vpartCmp a b = .eq) (x : VPart) :
    vpartCmp x a = vpartCmp x b := by
  rw [vpartCmp_swap x a, vpartCmp_swap x b, vpartCmp_congr_left h x]

theorem vpartCmp_lt_trans :
    ∀ {a b c : VPart}, vpartCmp a b = .lt → vpartCmp b c = .lt → vpartCmp a c = .lt
  | .s a, .s b, .s c, h1, h2 => charListCmp_lt_trans a.toList b.toList c.toList h1 h2
  | .s _, .s _, .n _, _, h2 => by simp [vpartCmp] at h2
  | .s _, .n _, _, h1, _ => by simp [vpartCmp] at h1
  | .n a, .n b, .n c, h1, h2 => by
    simp only [vpartCmp] at h1 h2 ⊢
    split_ifs at h1 h2 ⊢ <;> simp_all <;> omega
  | .n _, .n _, .s _, _, _ => rfl
  | .n _, .s _, .s _, _, h2 => rfl
  | .n _, .s _, .n _, _, h2 => by simp [vpartCmp] at h2

theorem keyCmp_swap : ∀ as bs : List VPart, keyCmp as bs = (keyCmp bs as).swap
  | [], [] => rfl
  | [], _ :: _ => rfl
  | _ :: _, [] => rfl
  | a :: as, b :: bs => by
    rw [keyCmp, keyCmp, vpartCmp_swap a b]
    cases vpartCmp b a <;> simp [Ordering.swap, keyCmp_swap as bs]

theorem keyCmp_congr_left :
    ∀ as bs : List VPart, keyCmp as bs = .eq → ∀ xs, keyCmp as xs = keyCmp bs xs
  | [], [], _, _ => rfl
  | [], _ :: _, h, _ => by simp [keyCmp] at h
  | _ :: _, [], h, _ => by simp [keyCmp] at h
  | a :: as, b :: bs, h, xs => by
    rw [keyCmp] at h
    cases hab : vpartCmp a b with
    | eq =>
      rw [hab] at h
      cases xs with
      | nil => rfl
      | cons x xs =>
        rw [keyCmp, keyCmp, vpartCmp_congr_left hab x]
        cases vpartCmp b x with
        | eq => exact keyCmp_congr_left as bs h xs
        | lt => rfl
        | gt => rfl
    | lt => rw [hab] at h; exact absurd h (by simp)
    | gt => rw [hab] at h; exact absurd h (by simp)

theorem keyCmp_lt_trans :
    ∀ as bs cs : List VPart, keyCmp as bs = .lt → keyCmp bs cs = .lt → keyCmp as cs = .lt
  | [], [], cs, h1, _ => by simp [keyCmp] at h1
  | [], b :: bs, [], _, h2 => by simp [keyCmp] at h2
  | [], b :: bs, c :: cs, _, _ => rfl
  | a :: as, [], cs, h1, _ => by simp [keyCmp] at h1
  | a :: as, b :: bs, [], _, h2 => by simp [keyCmp] at h2
  | a :: as, b :: bs, c :: cs, h1, h2 => by
    rw [keyCmp] at h1 h2 ⊢
    cases hab : vpartCmp a b with
    | eq =>
      rw [hab] at h1
      cases hbc : vpartCmp b c with
      | eq =>
        rw [hbc] at h2
        have hac : vpartCmp a c = .eq := by rw [vpartCmp_congr_left hab c, hbc]
        rw [hac]
        exact keyCmp_lt_trans as bs cs h1 h2
      | lt =>
        have hac : vpartCmp a c = .lt := by rw [vpartCmp_congr_left hab c, hbc]
        rw [hac]
      | gt => rw [hbc] at h2; exact absurd h2 (by simp)
    | lt =>
      cases hbc : vpartCmp b c with
      | eq =>
        have hac : vpartCmp a c = .lt := by rw [← vpartCmp_congr_right hbc a, hab]
        rw [hac]
      | lt => rw [vpartCmp_lt_trans hab hbc]
      | gt => rw [hbc] at h2; exact absurd h2 (by simp)
    | gt => rw [hab] at h1; exact absurd h1 (by simp)

theorem keyCmp_gt_to_lt {x y : List VPart} (h : keyCmp x y = .gt) : keyCmp y x = .lt := by
  have hs := keyCmp_swap x y
  rw [h] at hs
  cases h' : keyCmp y x with
  | lt => rfl
  | eq => rw [h'] at hs; exact absurd hs (by decide)
  | gt => rw [h'] at hs; exact absurd hs (by decide)

theorem keyCmp_eq_to_eq {x y : List VPart} (h : keyCmp x y = .eq) : keyCmp y x = .eq := by
  have hs := keyCmp_swap x y
  rw [h] at hs
  cases h' : keyCmp y x with
  | eq => rfl
  | lt => rw [h'] at hs; exact absurd hs (by decide)
  | gt => rw [h'] at hs; exact absurd hs (by decide)

theorem keyCmp_lt_to_gt {x y : List VPart} (h : keyCmp x y = .lt) : keyCmp y x = .gt := by
  have hs := keyCmp_swap x y
  rw [h] at hs
  cases h' : keyCmp y x with
  | gt => rfl
  | lt => rw [h'] at hs; exact absurd hs (by decide)
  | eq => rw [h'] at hs; exact absurd hs (by decide)

theorem tagGe_total (a b : String) : tagGe a b = true ∨ tagGe b a = true := by
  unfold tagGe
  cases h : keyCmp (version_key a) (version_key b) with
  | lt =>
    right
    rw [keyCmp_lt_to_gt h]
  | eq => left; rfl
  | gt => left; rfl

theorem tagGe_trans {a b c : String} (h1 : tagGe a b = true) (h2 : tagGe b c = true) :
    tagGe a c = true := by
  unfold tagGe at h1 h2 ⊢
  cases hac : keyCmp (version_key a) (version_key c) with
  | eq => rfl
  | gt => rfl
  | lt =>
    exfalso
    cases hab : keyCmp (version_key a) (version_key b) with
    | lt => rw [hab] at h1; simp at h1
    | eq =>
      rw [← keyCmp_congr_left _ _ hab (version_key c), hac] at h2
      simp at h2
    | gt =>
      have hba : keyCmp (version_key b) (version_key a) = .lt := keyCmp_gt_to_lt hab
      cases hbc : keyCmp (version_key b) (version_key c) with
      | lt => rw [hbc] at h2; simp at h2
      | eq =>
        have hcb : keyCmp (version_key c) (version_key b) = .eq := keyCmp_eq_to_eq hbc
        have : keyCmp (version_key c) (version_key a) = .lt := by
          rw [keyCmp_congr_left _ _ hcb (version_key a)]
          exact hba
        rw [keyCmp_lt_to_gt this] at hac
        exact absurd hac (by decide)
      | gt =>
        have hcb : keyCmp (version_key c) (version_key b) = .lt := keyCmp_gt_to_lt hbc
        have hca : keyCmp (version_key c) (version_key a) = .lt :=
          keyCmp_lt_trans _ _ _ hcb hba
        rw [keyCmp_lt_to_gt hca] at hac
        exact absurd hac (by decide)

instance : IsTotal String (fun a b => tagGe a b = true) := ⟨tagGe_total⟩

instance : IsTrans String (fun a b => tagGe a b = true) := ⟨fun _ _ _ => tagGe_trans⟩

/-! ### Facts about `dedupAcc` -/

theorem mem_dedupAcc :
    ∀ (l seen : List String) (x : String), x ∈ dedupAcc seen l ↔ (x ∈ l ∧ x ∉ seen) := by
  intro l
  induction l with
  | nil => intro seen x; simp [dedupAcc]
  | cons a t ih =>
    intro seen x
    by_cases ha : a ∈ seen
    · rw [dedupAcc, if_pos ha, ih]
      constructor
      · rintro ⟨hx, hs⟩
        exact ⟨List.mem_cons_of_mem a hx, hs⟩
      · rintro ⟨hx, hs⟩
        rcases List.mem_cons.mp hx with rfl | hx'
        · exact absurd ha hs
        · exact ⟨hx', hs⟩
    · rw [dedupAcc, if_neg ha]
      constructor
      · intro hx
        rcases List.mem_cons.mp hx with rfl | hx'
        · exact ⟨List.mem_cons_self _ _, ha⟩
        · rcases (ih (a :: seen) x).mp hx' with ⟨h1, h2⟩
          refine ⟨List.mem_cons_of_mem a h1, fun hs => h2 (List.mem_cons_of_mem a hs)⟩
      · rintro ⟨hx, hs⟩
        rcases List.mem_cons.mp hx with rfl | hx'
        · exact List.mem_cons_self _ _
        · by_cases hxa : x = a
          · subst hxa; exact List.mem_cons_self _ _
          · exact List.mem_cons_of_mem a
              ((ih (a :: seen) x).mpr ⟨hx', by simp [hxa, hs]⟩)

theorem nodup_dedupAcc : ∀ (l seen : List String), (dedupAcc seen l).Nodup := by
  intro l
  induction l with
  | nil => intro seen; simp [dedupAcc]
  | cons a t ih =>
    intro seen
    by_cases ha : a ∈ seen
    · rw [dedupAcc, if_pos ha]; exact ih seen
    · rw [dedupAcc, if_neg ha]
      refine List.nodup_cons.mpr ⟨?_, ih (a :: seen)⟩
      intro hmem
      exact ((mem_dedupAcc t (a :: seen) a).mp hmem).2 (List.mem_cons_self _ _)

theorem dedupAcc_ne_nil {a : String} {t : List String} : dedupAcc [] (a :: t) ≠ [] := by
  rw [dedupAcc, if_neg (List.not_mem_nil a)]
  exact List.cons_ne_nil _ _

/-! ### C3 — tag-list reconciliation -/

/-- C3: merging a non-empty old tag list with a different non-empty new one
gives, when the two lists share some tag, the duplicate-free union sorted
descending by the natural version-key order (`_version_key`), and, when they
are disjoint, exactly the new list. The two spec examples compute as claimed. -/
theorem C3_tag_merge (old newTags : List String) (h1 : old ≠ []) (h2 : newTags ≠ [])
    (h3 : old ≠ newTags) :
    (old.any (fun t => t ∈ newTags) = true →
      (merge_version_lists old newTags).Perm (dedupAcc [] (old ++ newTags)) ∧
      List.Sorted (fun a b => tagGe a b = true) (merge_version_lists old newTags) ∧
      (merge_version_lists old newTags).Nodup ∧
      (∀ x, x ∈ merge_version_lists old newTags ↔ (x ∈ old ∨ x ∈ newTags))) ∧
    (old.any (fun t => t ∈ newTags) = false → merge_version_lists old newTags = newTags) ∧
    merge_version_lists ["v1", "v2"] ["v2", "v3"] = ["v3", "v2", "v1"] ∧
    merge_version_lists ["v1"] ["v9"] = ["v9"] := by
  refine ⟨?_, ?_, by decide, by decide⟩
  · intro hc
    have hm : merge_version_lists old newTags =
        List.insertionSort (fun a b => tagGe a b = true) (dedupAcc [] (old ++ newTags)) := by
      unfold merge_version_lists
      rw [if_pos hc]
    have hperm : (merge_version_lists old newTags).Perm (dedupAcc [] (old ++ newTags)) := by
      rw [hm]
      exact List.perm_insertionSort _ _
    refine ⟨hperm, ?_, ?_, ?_⟩
    · rw [hm]
      exact List.sorted_insertionSort _ _
    · exact hperm.symm.nodup (nodup_dedupAcc _ [])
    · intro x
      rw [hperm.mem_iff, mem_dedupAcc]
      simp
  · intro hc
    unfold merge_version_lists
    rw [if_neg (by simp [hc])]

/-- Witness for `C3_tag_merge` on the overlap example
`old = ["v1","v2"]`, `new = ["v2","v3"]`. -/
theorem C3_witness :
    (merge_version_lists ["v1", "v2"] ["v2", "v3"]).Perm
      (dedupAcc [] (["v1", "v2"] ++ ["v2", "v3"])) ∧
    List.Sorted (fun a b => tagGe a b = true) (merge_version_lists ["v1", "v2"] ["v2", "v3"]) ∧
    (merge_version_lists ["v1", "v2"] ["v2", "v3"]).Nodup ∧
    (∀ x, x ∈ merge_version_lists ["v1", "v2"] ["v2", "v3"] ↔
      (x ∈ ["v1", "v2"] ∨ x ∈ ["v2", "v3"])) :=
  (C3_tag_merge ["v1", "v2"] ["v2", "v3"] (by decide) (by decide) (by decide)).1 (by decide)

/-! ### C9 — the known tag list never becomes empty again -/

theorem merge_version_lists_ne_nil {old newTags : List String}
    (h1 : old ≠ []) (h2 : newTags ≠ []) : merge_version_lists old newTags ≠ [] := by
  unfold merge_version_lists
  split_ifs with hc
  · cases old with
    | nil => exact absurd rfl h1
    | cons a t =>
      intro hnil
      have hlen := (List.perm_insertionSort (fun a b => tagGe a b = true)
        (dedupAcc [] (a :: t ++ newTags))).length_eq
      rw [hnil] at hlen
      have : dedupAcc [] (a :: (t ++ newTags)) = [] := List.length_eq_zero.mp hlen.symm
      exact dedupAcc_ne_nil this
  · exact h2

theorem set_tags_ne_nil {old : List String} (h : old ≠ []) :
    ∀ arg : TagsArg, set_tags old arg ≠ [] := by
  intro arg
  have hgo : ∀ newTags : List String, newTags ≠ [] → setTagsGo old newTags ≠ [] := by
    intro newTags hn
    unfold setTagsGo
    by_cases he : old = newTags
    · rw [if_pos he]; exact h
    · rw [if_neg he, if_neg h]
      exact merge_version_lists_ne_nil h hn
  cases arg with
  | nothing => exact h
  | one s => exact hgo [s] (List.cons_ne_nil _ _)
  | many l =>
    cases l with
    | nil => exact h
    | cons a t => exact hgo (a :: t) (List.cons_ne_nil _ _)

/-- C9: assigning `None` or the empty list to `_Repo.tags` leaves the stored
list unchanged, and once the stored list is non-empty no sequence of
assignments (including merges) can empty it again. -/
theorem C9_tags_never_empty :
    (∀ old : List String, set_tags old .nothing = old) ∧
    (∀ old : List String, set_tags old (.many []) = old) ∧
    (∀ (old : List String) (args : List TagsArg), old ≠ [] →
      args.foldl set_tags old ≠ []) := by
  refine ⟨fun old => rfl, fun old => rfl, ?_⟩
  intro old args
  induction args generalizing old with
  | nil => intro h; simpa using h
  | cons a t ih =>
    intro h
    rw [List.foldl_cons]
    exact ih (set_tags old a) (set_tags_ne_nil h a)

/-- Witness for `C9_tags_never_empty`: starting from `["v1"]`, a `None`
assignment, an empty assignment, a disjoint merge and an overlapping merge
leave the list non-empty. -/
theorem C9_witness :
    [TagsArg.nothing, TagsArg.many [], TagsArg.many ["v9"],
      TagsArg.many ["v9", "v10"]].foldl set_tags ["v1"] ≠ [] :=
  C9_tags_never_empty.2.2 ["v1"]
    [TagsArg.nothing, TagsArg.many [], TagsArg.many ["v9"], TagsArg.many ["v9", "v10"]]
    (by decide)

/-! ### C7 — pagination termination -/

theorem fetch_pages_aux_spec :
    ∀ (full : List (List String)) (lastPage : List String)
      (server : Nat → Option HttpResponse) (page : Nat) (acc : List String) (reqs : Nat),
      (∀ j b, full.get? j = some b → server (page + j) = some ⟨200, b⟩) →
      server (page + full.length) = some ⟨200, lastPage⟩ →
      (∀ b ∈ full, b.length = 100) → lastPage.length < 100 →
      fetch_pages_aux server (full.length + 1) page acc reqs =
        some (.ok (acc ++ full.flatten ++ lastPage), reqs + full.length + 1) := by
  intro full
  induction full with
  | nil =>
    intro lastPage server page acc reqs _ hlastSrv _ hlast
    rw [fetch_pages_aux]
    have hsp : server page = some ⟨200, lastPage⟩ := by simpa using hlastSrv
    rw [hsp]
    by_cases hnil : lastPage = []
    · subst hnil; simp [make_request]
    · simp [make_request, hnil, hlast]
  | cons b rest ih =>
    intro lastPage server page acc reqs hsrv hlastSrv hfull hlast
    have hb : server page = some ⟨200, b⟩ := by
      have := hsrv 0 b (by simp)
      simpa using this
    have hblen : b.length = 100 := hfull b (List.mem_cons_self _ _)
    have hbne : b ≠ [] := by
      intro h; rw [h] at hblen; simp at hblen
    have hrec := ih lastPage server (page + 1) (acc ++ b) (reqs + 1)
      (fun j bj hj => by
        have := hsrv (j + 1) bj (by simpa using hj)
        rw [show page + 1 + j = page + (j + 1) by omega]
        exact this)
      (by rw [show page + 1 + rest.length = page + (rest.length + 1) by omega]
          simpa using hlastSrv)
      (fun bj hj => hfull bj (List.mem_cons_of_mem b hj)) hlast
    rw [show (b :: rest).length + 1 = (rest.length + 1) + 1 by simp, fetch_pages_aux, hb]
    simp only [make_request, reduceIte, hblen]
    rw [if_neg hbne]
    simp only [show ¬ (100 < 100) by omega, if_false]
    rw [hrec]
    have hl : acc ++ b ++ rest.flatten ++ lastPage = acc ++ (b :: rest).flatten ++ lastPage := by
      simp [List.append_assoc]
    rw [hl, show reqs + 1 + rest.length + 1 = reqs + (rest.length + 1) + 1 by omega]
    rfl

/-- C7: a paginated fetch against a server answering 200 with
`full.length` pages of exactly 100 tags followed by one short page issues
exactly `full.length + 1` requests and returns the concatenation of all
pages in order; pagination stops at the first page with fewer than 100 tags
(or an empty page). -/
theorem C7_pagination (full : List (List String)) (lastPage : List String)
    (hfull : ∀ b ∈ full, b.length = 100) (hlast : lastPage.length < 100) :
    fetch_all_pages (serverOfPages (full ++ [lastPage])) (full.length + 1) =
      some (.ok (full.flatten ++ lastPage), full.length + 1) := by
  unfold fetch_all_pages
  have h := fetch_pages_aux_spec full lastPage (serverOfPages (full ++ [lastPage])) 1 [] 0
    (fun j b hj => by
      unfold serverOfPages
      have hjlt : j < full.length := by
        have := List.get?_eq_some.mp hj
        exact this.1
      rw [show 1 + j - 1 = j by omega, List.get?_append hjlt, hj]
      rfl)
    (by
      unfold serverOfPages
      rw [show 1 + full.length - 1 = full.length by omega, List.get?_concat_length]
      rfl)
    hfull hlast
  simpa using h

set_option maxRecDepth 10000 in
/-- Witness for `C7_pagination`: pages of sizes `[100, 100, 37]` produce
exactly 3 requests and 237 tags. -/
theorem C7_witness :
    fetch_all_pages (serverOfPages ([List.replicate 100 "a", List.replicate 100 "b"] ++
        [List.replicate 37 "c"])) 3 =
      some (.ok ([List.replicate 100 "a", List.replicate 100 "b"].flatten ++
        List.replicate 37 "c"), 3) ∧
    ([List.replicate 100 "a", List.replicate 100 "b"].flatten ++
      (List.replicate 37 "c" : List String)).length = 237 :=
  ⟨C7_pagination [List.replicate 100 "a", List.replicate 100 "b"] (List.replicate 37 "c")
      (by decide) (by decide),
   by decide⟩

/-! ### C6 — the end-to-end extraction scenario -/

/-- C6: flattening, resolving and extracting
`{"env":[{"BASE":"C:/plugins"}], "hpath":"$BASE/myplugin;$BASE/other"}` under
an existence oracle where `C:/plugins/myplugin` exists and
`C:/plugins/other` does not, with host-known plugin path set exactly
`{"C:/plugins/myplugin"}`, yields exactly `["C:/plugins/myplugin"]`. -/
theorem C6_pipeline (ex : String → Bool)
    (h1 : ex "C:/plugins/myplugin" = true) (h2 : ex "C:/plugins/other" = false) :
    package_pipeline 4 [] ex ["C:/plugins/myplugin"] treeC6 =
      some ["C:/plugins/myplugin"] := by
  have key : package_pipeline 4 [] ex ["C:/plugins/myplugin"] treeC6 =
      some (extract_data ["C:/plugins/myplugin"]
        (List.filter ex ["C:/plugins/myplugin", "C:/plugins/other"])) := rfl
  rw [key]
  rw [List.filter_cons, List.filter_cons, h1, h2]
  rfl

/-- Witness for `C6_pipeline`: the oracle that recognises exactly
`C:/plugins/myplugin`. -/
theorem C6_witness :
    package_pipeline 4 [] (fun s => s == "C:/plugins/myplugin")
      ["C:/plugins/myplugin"] treeC6 = some ["C:/plugins/myplugin"] :=
  C6_pipeline _ (by decide) (by decide)

/-! ### Structure of the flattened form (towards C5) -/

mutual
theorem flatten_length : ∀ (t : JTree) (pre : List Seg),
    (flatten_package t pre).length = leafCount t
  | .leaf v, pre => by simp [flatten_package, leafCount]
  | .obj fs, pre => by
    simp only [flatten_package, leafCount]
    exact flattenFields_length fs pre
  | .arr es, pre => by
    simp only [flatten_package, leafCount]
    exact flattenElems_length es 0 pre

theorem flattenFields_length : ∀ (fs : JFields) (pre : List Seg),
    (flattenFields fs pre).length = leafCountFields fs
  | .nil, _ => rfl
  | .cons k t rest, pre => by
    simp only [flattenFields, leafCountFields, List.length_append]
    rw [flatten_length t _, flattenFields_length rest pre]

theorem flattenElems_length : ∀ (es : JElems) (i : Nat) (pre : List Seg),
    (flattenElems es i pre).length = leafCountElems es
  | .nil, _, _ => rfl
  | .cons t rest, i, pre => by
    simp only [flattenElems, leafCountElems, List.length_append]
    rw [flatten_length t _, flattenElems_length rest (i + 1) pre]
end

mutual
theorem flatten_shape : ∀ (t : JTree) (pre : List Seg) (e : Entry),
    e ∈ flatten_package t pre → ∃ suf, e.segs = pre ++ suf
  | .leaf v, pre, e => by
    intro h
    simp only [flatten_package, List.mem_singleton] at h
    subst h
    exact ⟨[], by simp⟩
  | .obj fs, pre, e => by
    intro h
    simp only [flatten_package] at h
    obtain ⟨k, suf, _, hs⟩ := flattenFields_shape fs pre e h
    exact ⟨.key k :: suf, hs⟩
  | .arr es, pre, e => by
    intro h
    simp only [flatten_package] at h
    obtain ⟨j, suf, hs⟩ := flattenElems_shape es 0 pre e h
    exact ⟨.idx (0 + j) :: suf, hs⟩

theorem flattenFields_shape : ∀ (fs : JFields) (pre : List Seg) (e : Entry),
    e ∈ flattenFields fs pre →
      ∃ k suf, k ∈ fieldsKeys fs ∧ e.segs = pre ++ .key k :: suf
  | .nil, _, e => by intro h; simp [flattenFields] at h
  | .cons k t rest, pre, e => by
    intro h
    simp only [flattenFields, List.mem_append] at h
    rcases h with h | h
    · obtain ⟨suf, hs⟩ := flatten_shape t (pre ++ [.key k]) e h
      refine ⟨k, suf, by simp [fieldsKeys], ?_⟩
      rw [hs, List.append_assoc]
      rfl
    · obtain ⟨k2, suf, hk2, hs⟩ := flattenFields_shape rest pre e h
      exact ⟨k2, suf, by simp [fieldsKeys, hk2], hs⟩

theorem flattenElems_shape : ∀ (es : JElems) (i : Nat) (pre : List Seg) (e : Entry),
    e ∈ flattenElems es i pre → ∃ j suf, e.segs = pre ++ .idx (i + j) :: suf
  | .nil, _, _, e => by intro h; simp [flattenElems] at h
  | .cons t rest, i, pre, e => by
    intro h
    simp only [flattenElems, List.mem_append] at h
    rcases h with h | h
    · obtain ⟨suf, hs⟩ := flatten_shape t (pre ++ [.idx i]) e h
      refine ⟨0, suf, ?_⟩
      rw [hs, List.append_assoc]
      rfl
    · obtain ⟨j, suf, hs⟩ := flattenElems_shape rest (i + 1) pre e h
      refine ⟨j + 1, suf, ?_⟩
      rw [show i + (j + 1) = (i + 1) + j by omega]
      exact hs
end

mutual
theorem flatten_ne_nil : ∀ (t : JTree) (pre : List Seg),
    hasLeaf t = true → flatten_package t pre ≠ []
  | .leaf v, pre, _ => by simp [flatten_package]
  | .obj fs, pre, h => by
    simp only [hasLeaf] at h
    simp only [flatten_package]
    exact flattenFields_ne_nil fs pre h
  | .arr es, pre, h => by
    simp only [hasLeaf] at h
    simp only [flatten_package]
    exact flattenElems_ne_nil es 0 pre h

theorem flattenFields_ne_nil : ∀ (fs : JFields) (pre : List Seg),
    fieldsHasLeaf fs = true → flattenFields fs pre ≠ []
  | .nil, _, h => by simp [fieldsHasLeaf] at h
  | .cons k t rest, pre, h => by
    simp only [fieldsHasLeaf, Bool.or_eq_true] at h
    simp only [flattenFields]
    intro hnil
    rcases List.append_eq_nil.mp hnil with ⟨h1, h2⟩
    rcases h with h | h
    · exact flatten_ne_nil t _ h h1
    · exact flattenFields_ne_nil rest pre h h2

theorem flattenElems_ne_nil : ∀ (es : JElems) (i : Nat) (pre : List Seg),
    elemsHasLeaf es = true → flattenElems es i pre ≠ []
  | .nil, _, _, h => by simp [elemsHasLeaf] at h
  | .cons t rest, i, pre, h => by
    simp only [elemsHasLeaf, Bool.or_eq_true] at h
    simp only [flattenElems]
    intro hnil
    rcases List.append_eq_nil.mp hnil with ⟨h1, h2⟩
    rcases h with h | h
    · exact flatten_ne_nil t _ h h1
    · exact flattenElems_ne_nil rest (i + 1) pre h h2
end

theorem lookupField_mem : ∀ (fs : JFields) (k : String) (c : JTree),
    lookupField fs k = some c → k ∈ fieldsKeys fs
  | .nil, k, c => by intro h; simp [lookupField] at h
  | .cons k2 t rest, k, c => by
    intro h
    simp only [lookupField] at h
    by_cases he : k2 = k
    · subst he; simp [fieldsKeys]
    · rw [if_neg he] at h
      simp only [fieldsKeys, List.mem_cons]
      exact Or.inr (lookupField_mem rest k c h)

mutual
theorem getPath_flatten : ∀ (t : JTree) (pre : List Seg) (e : Entry),
    good t = true → e ∈ flatten_package t pre →
      ∃ suf, e.segs = pre ++ suf ∧ getPath t suf = some (.leaf e.val)
  | .leaf v, pre, e => by
    intro _ h
    simp only [flatten_package, List.mem_singleton] at h
    subst h
    exact ⟨[], by simp, by simp [getPath]⟩
  | .obj fs, pre, e => by
    intro hg h
    simp only [good, Bool.and_eq_true] at hg
    simp only [flatten_package] at h
    obtain ⟨k, c, suf, hlk, hs, hp⟩ := getPath_flattenFields fs pre e hg.1 hg.2 h
    refine ⟨.key k :: suf, hs, ?_⟩
    simp [getPath, hlk, hp]
  | .arr es, pre, e => by
    intro hg h
    simp only [good] at hg
    simp only [flatten_package] at h
    obtain ⟨j, c, suf, hget, hs, hp⟩ := getPath_flattenElems es 0 pre e hg h
    refine ⟨.idx (0 + j) :: suf, hs, ?_⟩
    rw [show 0 + j = j by omega]
    simp [getPath, hget, hp]

theorem getPath_flattenFields : ∀ (fs : JFields) (pre : List Seg) (e : Entry),
    nodupKeys (fieldsKeys fs) = true → goodFields fs = true → e ∈ flattenFields fs pre →
      ∃ k c suf, lookupField fs k = some c ∧ e.segs = pre ++ .key k :: suf ∧
        getPath c suf = some (.leaf e.val)
  | .nil, _, e => by intro _ _ h; simp [flattenFields] at h
  | .cons k t rest, pre, e => by
    intro hnd hg h
    simp only [fieldsKeys, nodupKeys, Bool.and_eq_true] at hnd
    simp only [goodFields, Bool.and_eq_true] at hg
    simp only [flattenFields, List.mem_append] at h
    rcases h with h | h
    · obtain ⟨suf, hs, hp⟩ := getPath_flatten t (pre ++ [.key k]) e hg.1.2 h
      refine ⟨k, t, suf, by simp [lookupField], ?_, hp⟩
      rw [hs, List.append_assoc]
      rfl
    · obtain ⟨k2, c, suf, hlk, hs, hp⟩ := getPath_flattenFields rest pre e hnd.2 hg.2 h
      have hk2 : k2 ∈ fieldsKeys rest := lookupField_mem rest k2 c hlk
      have hknotin : k ∉ fieldsKeys rest := by simpa using hnd.1
      have hne : k ≠ k2 := fun he => hknotin (he ▸ hk2)
      refine ⟨k2, c, suf, ?_, hs, hp⟩
      simp only [lookupField, if_neg hne]
      exact hlk

theorem getPath_flattenElems : ∀ (es : JElems) (i : Nat) (pre : List Seg) (e : Entry),
    goodElems es = true → e ∈ flattenElems es i pre →
      ∃ j c suf, elemsGet es j = some c ∧ e.segs = pre ++ .idx (i + j) :: suf ∧
        getPath c suf = some (.leaf e.val)
  | .nil, _, _, e => by intro _ h; simp [flattenElems] at h
  | .cons t rest, i, pre, e => by
    intro hg h
    simp only [goodElems, Bool.and_eq_true] at hg
    simp only [flattenElems, List.mem_append] at h
    rcases h with h | h
    · obtain ⟨suf, hs, hp⟩ := getPath_flatten t (pre ++ [.idx i]) e hg.1.2 h
      refine ⟨0, t, suf, rfl, ?_, hp⟩
      rw [hs, List.append_assoc]
      simp
    · obtain ⟨j, c, suf, hget, hs, hp⟩ := getPath_flattenElems rest (i + 1) pre e hg.2 h
      refine ⟨j + 1, c, suf, by simpa [elemsGet] using hget, ?_, hp⟩
      rw [show i + (j + 1) = (i + 1) + j by omega]
      exact hs
end

theorem nthSeg_append : ∀ (l : List Seg) (s : Seg) (r : List Seg),
    nthSeg (l ++ s :: r) l.length = some s := by
  intro l
  induction l with
  | nil => intro s r; rfl
  | cons a t ih => intro s r; simpa [nthSeg, List.drop] using ih s r

/-- Splitting an equality of concatenations along a property that holds on
both left parts and fails on both right parts. -/
theorem append_eq_split {α : Type} (P : α → Prop) :
    ∀ (xs ys xs2 ys2 : List α), xs ++ ys = xs2 ++ ys2 →
      (∀ e ∈ xs, P e) → (∀ e ∈ xs2, P e) → (∀ e ∈ ys, ¬ P e) → (∀ e ∈ ys2, ¬ P e) →
      xs = xs2 ∧ ys = ys2 := by
  intro xs
  induction xs with
  | nil =>
    intro ys xs2 ys2 heq _ hx2 hy _
    cases xs2 with
    | nil => exact ⟨rfl, by simpa using heq⟩
    | cons a t =>
      exfalso
      simp only [List.nil_append, List.cons_append] at heq
      have ha : P a := hx2 a (List.mem_cons_self _ _)
      have : a ∈ ys := by rw [heq]; exact List.mem_cons_self _ _
      exact hy a this ha
  | cons a t ih =>
    intro ys xs2 ys2 heq hx hx2 hy hy2
    cases xs2 with
    | nil =>
      exfalso
      simp only [List.cons_append, List.nil_append] at heq
      have ha : P a := hx a (List.mem_cons_self _ _)
      have : a ∈ ys2 := by rw [← heq]; exact List.mem_cons_self _ _
      exact hy2 a this ha
    | cons b u =>
      simp only [List.cons_append] at heq
      injection heq with h1 h2
      subst h1
      obtain ⟨hu, hys⟩ := ih ys u ys2 h2 (fun e he => hx e (List.mem_cons_of_mem a he))
        (fun e he => hx2 e (List.mem_cons_of_mem a he)) hy hy2
      exact ⟨by rw [hu], hys⟩

theorem block_nthSeg {t : JTree} {pre : List Seg} {s : Seg} {e : Entry}
    (h : e ∈ flatten_package t (pre ++ [s])) : nthSeg e.segs pre.length = some s := by
  obtain ⟨suf, hs⟩ := flatten_shape t (pre ++ [s]) e h
  rw [hs, List.append_assoc]
  exact nthSeg_append pre s suf

theorem fieldsBlock_not_nthSeg {fs : JFields} {pre : List Seg} {k : String} {e : Entry}
    (hnotin : k ∉ fieldsKeys fs) (h : e ∈ flattenFields fs pre) :
    ¬ (nthSeg e.segs pre.length = some (.key k)) := by
  intro hP
  obtain ⟨k2, suf, hk2, hs⟩ := flattenFields_shape fs pre e h
  rw [hs, nthSeg_append] at hP
  injection hP with hP2
  injection hP2 with hP3
  exact hnotin (hP3 ▸ hk2)

theorem elemsBlock_not_nthSeg {es : JElems} {i : Nat} {pre : List Seg} {e : Entry}
    (h : e ∈ flattenElems es (i + 1) pre) :
    ¬ (nthSeg e.segs pre.length = some (.idx i)) := by
  intro hP
  obtain ⟨j, suf, hs⟩ := flattenElems_shape es (i + 1) pre e h
  rw [hs, nthSeg_append] at hP
  injection hP with hP2
  injection hP2 with hP3
  omega

/-- Injectivity of flattening on well-formed documents, proved level by level
on the size of the left argument. -/
theorem flatten_inj_levels : ∀ n : Nat,
    (∀ (t1 t2 : JTree) (pre : List Seg), sizeT t1 ≤ n →
      good t1 = true → good t2 = true → hasLeaf t1 = true → hasLeaf t2 = true →
      flatten_package t1 pre = flatten_package t2 pre → t1 = t2) ∧
    (∀ (fs1 fs2 : JFields) (pre : List Seg), sizeF fs1 ≤ n →
      nodupKeys (fieldsKeys fs1) = true → goodFields fs1 = true →
      nodupKeys (fieldsKeys fs2) = true → goodFields fs2 = true →
      flattenFields fs1 pre = flattenFields fs2 pre → fs1 = fs2) ∧
    (∀ (es1 es2 : JElems) (i : Nat) (pre : List Seg), sizeE es1 ≤ n →
      goodElems es1 = true → goodElems es2 = true →
      flattenElems es1 i pre = flattenElems es2 i pre → es1 = es2) := by
  intro n
  induction n using Nat.strong_induction_on with
  | _ n IH =>
  refine ⟨?_, ?_, ?_⟩
  · intro t1 t2 pre hsz hg1 hg2 hl1 hl2 heq
    cases t1 with
    | leaf v1 =>
      cases t2 with
      | leaf v2 =>
        simp only [flatten_package] at heq
        injection heq with h1 _
        injection h1 with _ h2
        rw [h2]
      | obj fs =>
        exfalso
        simp only [flatten_package] at heq
        have hmem : (⟨pre, v1⟩ : Entry) ∈ flattenFields fs pre := by
          rw [← heq]; exact List.mem_cons_self _ _
        obtain ⟨k, suf, _, hs⟩ := flattenFields_shape fs pre _ hmem
        have := congrArg List.length hs
        simp at this
      | arr es =>
        exfalso
        simp only [flatten_package] at heq
        have hmem : (⟨pre, v1⟩ : Entry) ∈ flattenElems es 0 pre := by
          rw [← heq]; exact List.mem_cons_self _ _
        obtain ⟨j, suf, hs⟩ := flattenElems_shape es 0 pre _ hmem
        have := congrArg List.length hs
        simp at this
    | obj fs1 =>
      cases t2 with
      | leaf v2 =>
        exfalso
        simp only [flatten_package] at heq
        have hmem : (⟨pre, v2⟩ : Entry) ∈ flattenFields fs1 pre := by
          rw [heq]; exact List.mem_cons_self _ _
        obtain ⟨k, suf, _, hs⟩ := flattenFields_shape fs1 pre _ hmem
        have := congrArg List.length hs
        simp at this
      | obj fs2 =>
        simp only [flatten_package] at heq
        simp only [good, Bool.and_eq_true] at hg1 hg2
        have hlt : sizeF fs1 < n := by simp only [sizeT] at hsz; omega
        have := (IH (sizeF fs1) hlt).2.1 fs1 fs2 pre le_rfl hg1.1 hg1.2 hg2.1 hg2.2 heq
        rw [this]
      | arr es2 =>
        exfalso
        simp only [flatten_package] at heq
        simp only [hasLeaf] at hl1
        obtain ⟨e, l, hel⟩ := List.exists_cons_of_ne_nil (flattenFields_ne_nil fs1 pre hl1)
        have hm1 : e ∈ flattenFields fs1 pre := by rw [hel]; exact List.mem_cons_self _ _
        have hm2 : e ∈ flattenElems es2 0 pre := by rw [← heq]; exact hm1
        obtain ⟨k, suf1, _, hs1⟩ := flattenFields_shape fs1 pre e hm1
        obtain ⟨j, suf2, hs2⟩ := flattenElems_shape es2 0 pre e hm2
        rw [hs1] at hs2
        have := List.append_cancel_left hs2
        simp at this
    | arr es1 =>
      cases t2 with
      | leaf v2 =>
        exfalso
        simp only [flatten_package] at heq
        have hmem : (⟨pre, v2⟩ : Entry) ∈ flattenElems es1 0 pre := by
          rw [heq]; exact List.mem_cons_self _ _
        obtain ⟨j, suf, hs⟩ := flattenElems_shape es1 0 pre _ hmem
        have := congrArg List.length hs
        simp at this
      | obj fs2 =>
        exfalso
        simp only [flatten_package] at heq
        simp only [hasLeaf] at hl1
        obtain ⟨e, l, hel⟩ := List.exists_cons_of_ne_nil (flattenElems_ne_nil es1 0 pre hl1)
        have hm1 : e ∈ flattenElems es1 0 pre := by rw [hel]; exact List.mem_cons_self _ _
        have hm2 : e ∈ flattenFields fs2 pre := by rw [← heq]; exact hm1
        obtain ⟨j, suf1, hs1⟩ := flattenElems_shape es1 0 pre e hm1
        obtain ⟨k, suf2, _, hs2⟩ := flattenFields_shape fs2 pre e hm2
        rw [hs1] at hs2
        have := List.append_cancel_left hs2
        simp at this
      | arr es2 =>
        simp only [flatten_package] at heq
        simp only [good] at hg1 hg2
        have hlt : sizeE es1 < n := by simp only [sizeT] at hsz; omega
        have := (IH (sizeE es1) hlt).2.2 es1 es2 0 pre le_rfl hg1 hg2 heq
        rw [this]
  · intro fs1 fs2 pre hsz hnd1 hg1 hnd2 hg2 heq
    cases fs1 with
    | nil =>
      cases fs2 with
      | nil => rfl
      | cons k2 t2 r2 =>
        exfalso
        simp only [flattenFields] at heq
        simp only [goodFields, Bool.and_eq_true] at hg2
        exact flatten_ne_nil t2 _ hg2.1.1 (List.append_eq_nil.mp heq.symm).1
    | cons k1 t1 r1 =>
      cases fs2 with
      | nil =>
        exfalso
        simp only [flattenFields] at heq
        simp only [goodFields, Bool.and_eq_true] at hg1
        exact flatten_ne_nil t1 _ hg1.1.1 (List.append_eq_nil.mp heq).1
      | cons k2 t2 r2 =>
        simp only [flattenFields] at heq
        simp only [goodFields, Bool.and_eq_true] at hg1 hg2
        simp only [fieldsKeys, nodupKeys, Bool.and_eq_true] at hnd1 hnd2
        have hk1notin : k1 ∉ fieldsKeys r1 := by simpa using hnd1.1
        have hk2notin : k2 ∉ fieldsKeys r2 := by simpa using hnd2.1
        obtain ⟨e1, l1, he1⟩ := List.exists_cons_of_ne_nil
          (flatten_ne_nil t1 (pre ++ [.key k1]) hg1.1.1)
        obtain ⟨e2, l2, he2⟩ := List.exists_cons_of_ne_nil
          (flatten_ne_nil t2 (pre ++ [.key k2]) hg2.1.1)
        have heq2 := heq
        rw [he1, he2] at heq2
        simp only [List.cons_append] at heq2
        have hee : e1 = e2 := by
          have := congrArg List.head? heq2
          simpa using this
        have hn1 : nthSeg e1.segs pre.length = some (.key k1) :=
          block_nthSeg (t := t1) (by rw [he1]; exact List.mem_cons_self _ _)
        have hn2 : nthSeg e2.segs pre.length = some (.key k2) :=
          block_nthSeg (t := t2) (by rw [he2]; exact List.mem_cons_self _ _)
        have hkk : k1 = k2 := by
          rw [hee] at hn1
          rw [hn1] at hn2
          simpa using hn2
        subst hkk
        obtain ⟨hfl, hre⟩ := append_eq_split
          (fun e => nthSeg e.segs pre.length = some (.key k1)) _ _ _ _ heq
          (fun e he => block_nthSeg (t := t1) he)
          (fun e he => block_nthSeg (t := t2) he)
          (fun e he => fieldsBlock_not_nthSeg hk1notin he)
          (fun e he => fieldsBlock_not_nthSeg hk2notin he)
        have hlt1 : sizeT t1 < n := by simp only [sizeF] at hsz; omega
        have ht := (IH (sizeT t1) hlt1).1 t1 t2 (pre ++ [.key k1]) le_rfl
          hg1.1.2 hg2.1.2 hg1.1.1 hg2.1.1 hfl
        have hlt2 : sizeF r1 < n := by simp only [sizeF] at hsz; omega
        have hr := (IH (sizeF r1) hlt2).2.1 r1 r2 pre le_rfl hnd1.2 hg1.2 hnd2.2 hg2.2 hre
        rw [ht, hr]
  · intro es1 es2 i pre hsz hg1 hg2 heq
    cases es1 with
    | nil =>
      cases es2 with
      | nil => rfl
      | cons t2 r2 =>
        exfalso
        simp only [flattenElems] at heq
        simp only [goodElems, Bool.and_eq_true] at hg2
        exact flatten_ne_nil t2 _ hg2.1.1 (List.append_eq_nil.mp heq.symm).1
    | cons t1 r1 =>
      cases es2 with
      | nil =>
        exfalso
        simp only [flattenElems] at heq
        simp only [goodElems, Bool.and_eq_true] at hg1
        exact flatten_ne_nil t1 _ hg1.1.1 (List.append_eq_nil.mp heq).1
      | cons t2 r2 =>
        simp only [flattenElems] at heq
        simp only [goodElems, Bool.and_eq_true] at hg1 hg2
        obtain ⟨hfl, hre⟩ := append_eq_split
          (fun e => nthSeg e.segs pre.length = some (.idx i)) _ _ _ _ heq
          (fun e he => block_nthSeg (t := t1) he)
          (fun e he => block_nthSeg (t := t2) he)
          (fun e he => elemsBlock_not_nthSeg he)
          (fun e he => elemsBlock_not_nthSeg he)
        have hlt1 : sizeT t1 < n := by simp only [sizeE] at hsz; omega
        have ht := (IH (sizeT t1) hlt1).1 t1 t2 (pre ++ [.idx i]) le_rfl
          hg1.1.2 hg2.1.2 hg1.1.1 hg2.1.1 hfl
        have hlt2 : sizeE r1 < n := by simp only [sizeE] at hsz; omega
        have hr := (IH (sizeE r1) hlt2).2.2 r1 r2 (i + 1) pre le_rfl hg1.2 hg2.2 hre
        rw [ht, hr]

/-! ### C5 — the flatten round trip -/

/-- C5: the claim states that for every JSON-like value, flattening produces
one entry per leaf with the pre-order path to it, and that the entry
collection reconstructs a tree isomorphic to the input. The reconstruction
part is false for every value: the empty object `{}` and the empty array `[]`
are different values whose flattened forms are both the empty list, so no
reconstruction can tell them apart (the same happens for any value containing
an empty container). -/
theorem C5_counterexample :
    ¬ ((∀ (t : JTree) (pre : List Seg), (flatten_package t pre).length = leafCount t) ∧
       (∀ (t : JTree) (e : Entry), good t = true → e ∈ flatten_package t [] →
         getPath t e.segs = some (.leaf e.val)) ∧
       (∀ t1 t2 : JTree, flatten_package t1 [] = flatten_package t2 [] → t1 = t2)) := by
  rintro ⟨-, -, h⟩
  exact absurd (h (.obj .nil) (.arr .nil) rfl) (by decide)

/-- C5 (amended): flattening produces exactly one entry per scalar leaf
(`leafCount`), every produced entry is the pre-order access path to its own
scalar (`getPath` follows it back to the leaf), and the flattened form
determines the document uniquely for well-formed documents — object keys
duplicate-free (as Python dicts guarantee) and no subtree without a leaf
(empty objects and arrays flatten to nothing and are indistinguishable). -/
theorem C5_amended :
    (∀ (t : JTree) (pre : List Seg), (flatten_package t pre).length = leafCount t) ∧
    (∀ (t : JTree) (e : Entry), good t = true → e ∈ flatten_package t [] →
      getPath t e.segs = some (.leaf e.val)) ∧
    (∀ t1 t2 : JTree, good t1 = true → good t2 = true →
      hasLeaf t1 = true → hasLeaf t2 = true →
      flatten_package t1 [] = flatten_package t2 [] → t1 = t2) := by
  refine ⟨flatten_length, ?_, ?_⟩
  · intro t e hg he
    obtain ⟨suf, hs, hp⟩ := getPath_flatten t [] e hg he
    rw [hs]
    simpa using hp
  · intro t1 t2 hg1 hg2 hl1 hl2 heq
    exact (flatten_inj_levels (sizeT t1)).1 t1 t2 [] le_rfl hg1 hg2 hl1 hl2 heq

/-- Witness for `C5_amended` on the concrete document `treeC6`: its flattened
form has one entry per leaf, the `hpath` entry's path looks up its own value,
and injectivity applies to it. -/
theorem C5_witness :
    good treeC6 = true ∧ hasLeaf treeC6 = true ∧
    getPath treeC6 [.key "hpath"] = some (.leaf (.str "$BASE/myplugin;$BASE/other")) ∧
    treeC6 = treeC6 :=
  ⟨by decide, by decide,
   C5_amended.2.1 treeC6 ⟨[.key "hpath"], .str "$BASE/myplugin;$BASE/other"⟩
     (by decide) (by decide),
   C5_amended.2.2 treeC6 treeC6 (by decide) (by decide) (by decide) (by decide) rfl⟩
